import Mathlib

/-!
Shallow embedding of `src/neurallog/language/language.py` (NeuralLog's term
and clause algebra) and proofs about the claims on it.

Modelling conventions:
* Python strings are Lean `String`s; Python string comparison (by code
  point) is modelled on the underlying `List Char`.
* Python numbers (int and float) are modelled as `ℚ`.  The claims under
  verification only compare numbers for equality and order, which `ℚ`
  reproduces (Python `5 == 5.0` is true, as is `(5 : ℚ) = 5`).  The exact
  decimal rendering of a non-integral float is not reproduced (no claim
  depends on that text); integral values render like Python ints.
* Python `==`/`!=` dispatch through the `__eq__` methods of the classes in
  the source; each is modelled by an explicit `py...Eq` function computed
  from the `key()` tuples, exactly as the source defines them.
* Exceptions are modelled with `Except`; each raise site returns the
  corresponding `KnowledgeError` value.
-/

namespace NeuralLog

/-- Fixed lexical constants from the top of language.py. -/
def TRAINABLE_KEY : String := "$"

def WEIGHT_SEPARATOR : String := "::"

def NEGATION_KEY : String := "not"

def IMPLICATION_SIGN : String := ":-"

def END_SIGN : String := "."

def commaSpace : String := ", "

def singleQuoteChar : Char := Char.ofNat 39

def doubleQuoteChar : Char := '"'

def openBraceChar : Char := Char.ofNat 123

def closeBraceChar : Char := Char.ofNat 125

/-- Characters allowed inside a `PLACE_HOLDER` (`[a-zA-Z0-9_-]`). -/
def placeholderChar (c : Char) : Bool :=
  c.isAlphanum || c = '_' || c = '-'

/-- After an opening brace, a nonempty run of placeholder characters must be
followed directly by a closing brace for `PLACE_HOLDER` to match there. -/
def placeholderAfterBrace (l : List Char) : Bool :=
  !(l.takeWhile placeholderChar).isEmpty &&
    match l.dropWhile placeholderChar with
    | c :: _ => c = closeBraceChar
    | [] => false

/-- `PLACE_HOLDER.search(value) is not None`: some position of the string
starts a `{identifier}` match. -/
def hasPlaceholder : List Char → Bool
  | [] => false
  | c :: rest => (c = openBraceChar && placeholderAfterBrace rest) || hasPlaceholder rest

/-- An element of a `key()` tuple of a `Term`: a Python string or number. -/
inductive PyVal where
  | s (v : String)
  | q (v : ℚ)
deriving DecidableEq

/-- The `Term` hierarchy of language.py as a closed sum.
`quote` stores the quote character, the unquoted value (`value[1:-1]`) and
the `_is_template` flag computed at construction by `mkQuote`;
`templateTerm` stores its parts (its `value` is their concatenation);
`listTerms` stores its items (its `value` is the rendered list). -/
inductive Term where
  | constant (value : String)
  | var (value : String)
  | quote (quoteChar : Char) (value : String) (isTemplate : Bool)
  | number (value : ℚ)
  | templateTerm (parts : List String)
  | listTerms (items : List Term)

/-- The character for a single decimal digit. -/
def natDigitChar : Nat → Char
  | 0 => '0'
  | 1 => '1'
  | 2 => '2'
  | 3 => '3'
  | 4 => '4'
  | 5 => '5'
  | 6 => '6'
  | 7 => '7'
  | 8 => '8'
  | _ => '9'

/-- Decimal digits with explicit fuel (any fuel above the number works;
structural recursion keeps the definition computable by the kernel). -/
def natDigitsAux : Nat → Nat → List Char
  | 0, _ => []
  | fuel + 1, n =>
    if n < 10 then [natDigitChar n] else natDigitsAux fuel (n / 10) ++ [natDigitChar (n % 10)]

/-- Decimal digits of a natural number, most significant first; models the
text produced by Python formatting of a nonnegative int. -/
def natDigits (n : Nat) : List Char :=
  natDigitsAux (n + 1) n

/-- Decimal rendering of a natural number. -/
def natStr (n : Nat) : String :=
  String.mk (natDigits n)

/-- Decimal rendering of an integer. -/
def intStr (i : Int) : String :=
  if i < 0 then "-" ++ natStr i.natAbs else natStr i.natAbs

/-- Python `str` of a `Number` value.  Integral values render like Python
ints; the decimal text of a non-integral float is not reproduced exactly
(no claim depends on it). -/
def numStr (v : ℚ) : String :=
  if v.den = 1 then intStr v.num else intStr v.num ++ "/" ++ natStr v.den

mutual

/-- Python `str()` of a term: `Term.__repr__` returns `value`;
`Quote.__str__` re-wraps in the quote character; `Number.__str__` is the
number's text; a `ListTerms` renders as `[t1, t2, ...]`. -/
def strTerm : Term → String
  | .constant v => v
  | .var v => v
  | .quote c v _ => String.mk [c] ++ v ++ String.mk [c]
  | .number v => numStr v
  | .templateTerm parts => String.join parts
  | .listTerms items => "[" ++ String.intercalate commaSpace (strTermList items) ++ "]"

def strTermList : List Term → List String
  | [] => []
  | t :: ts => strTerm t :: strTermList ts

end

/-- The `value` payload of a term, as stored by the constructors in the
source (`ListTerms.__init__` stores the rendered text, `TemplateTerm`
stores the concatenation of its parts). -/
def termValue : Term → PyVal
  | .constant v => .s v
  | .var v => .s v
  | .quote _ v _ => .s v
  | .number v => .q v
  | .templateTerm parts => .s (String.join parts)
  | .listTerms items => .s ("[" ++ String.intercalate commaSpace (strTermList items) ++ "]")

/-- `Term.key()`: `(value,)` for every variant except `Variable`, whose
`key()` is `(Variable.__class__.__name__, value)`; `Variable.__class__` is
the metaclass `type`, so the tag is the string `"type"`. -/
def termKey : Term → List PyVal
  | .var v => [.s "type", .s v]
  | t => [termValue t]

/-- Python `==` on terms (`Term.__eq__`): equality of `key()` tuples. -/
def pyTermEq (a b : Term) : Bool :=
  decide (termKey a = termKey b)

/-- `is_constant()` for each term variant. -/
def Term.is_constant : Term → Bool
  | .constant _ => true
  | .var _ => false
  | .quote _ _ tmpl => !tmpl
  | .number _ => true
  | .templateTerm _ => false
  | .listTerms _ => true

mutual

/-- `is_template()` for each term variant; `ListTerms.is_template` scans
its items left to right, short-circuiting on the first template found. -/
def Term.is_template : Term → Bool
  | .constant _ => false
  | .var _ => false
  | .quote _ _ tmpl => tmpl
  | .number _ => false
  | .templateTerm _ => true
  | .listTerms items => listTermsHasTemplate items

def listTermsHasTemplate : List Term → Bool
  | [] => false
  | t :: ts => t.is_template || listTermsHasTemplate ts

end

/-- `Quote.__init__(value)`: strips the surrounding quote characters,
records the quote character and whether `PLACE_HOLDER` occurs in the raw
text. -/
def mkQuote (raw : String) : Term :=
  .quote raw.front (String.mk (raw.data.drop 1).dropLast) (hasPlaceholder raw.data)

/-- `Predicate` (and its `TemplatePredicate` subclass, marked by the
`template` flag; its `name` is the concatenation of its parts). -/
structure Predicate where
  name : String
  arity : Int
  template : Bool
deriving DecidableEq

/-- `Predicate.key()` is `(name, arity)`. -/
def Predicate.key (p : Predicate) : String × Int :=
  (p.name, p.arity)

/-- Python `==` on predicates, dispatched on the left operand
(`Predicate.__eq__`): `isinstance(other, self.__class__)` means a plain
predicate accepts any predicate while a template predicate requires a
template one; then `key()` tuples must match. -/
def pyPredEq (self other : Predicate) : Bool :=
  (if self.template then other.template else true) &&
    decide (self.name = other.name) && decide (self.arity = other.arity)

/-- `Predicate.equivalent`: same name and either same arity or at least one
negative arity. -/
def Predicate.equivalent (self other : Predicate) : Bool :=
  if self.arity < 0 || other.arity < 0 then decide (self.name = other.name)
  else pyPredEq self other

/-- `FileDefinedClause` provenance: a start line and a file name. -/
structure FileDefinedClause where
  start_line : Int
  filename : String
deriving DecidableEq

/-- The exception taxonomy of language.py, as error values. -/
inductive KnowledgeError where
  | atomMalformed (expected : Int) (found : Nat)
  | termMalformed
  | clauseMalformed
  | badArgument
  | tooManyArguments
  | stringIndexError
deriving DecidableEq

/-- `Atom`: predicate, terms, weight and optional provenance. -/
structure Atom where
  predicate : Predicate
  terms : List Term
  weight : ℚ
  provenance : Option FileDefinedClause

/-- An argument accepted by `build_terms`: an existing term, a raw string,
or a number. -/
inductive TermArg where
  | term (t : Term)
  | str (s : String)
  | num (v : ℚ)

/-- `get_term_from_string`: variable if the first character is upper case,
constant if lower case or underscore, quote if wrapped in matching quote
characters, otherwise `TermMalformedException`.  (Python raises IndexError
on the empty string; modelled as `stringIndexError`.) -/
def getTermFromString (s : String) : Except KnowledgeError Term :=
  match s.data with
  | [] => .error .stringIndexError
  | c :: rest =>
    if c.isUpper then .ok (.var s)
    else if c.isLower || c = '_' then .ok (.constant s)
    else if (c = singleQuoteChar || c = doubleQuoteChar) &&
        (c :: rest).getLast? = some c then .ok (mkQuote s)
    else .error .termMalformed

/-- `get_constant_from_string`: like `get_term_from_string` but never a
variable; unquoted strings become constants. -/
def getConstantFromString (s : String) : Except KnowledgeError Term :=
  match s.data with
  | [] => .error .stringIndexError
  | c :: rest =>
    if (c = singleQuoteChar || c = doubleQuoteChar) &&
        (c :: rest).getLast? = some c then .ok (mkQuote s)
    else .ok (.constant s)

/-- `build_terms` on a single argument. -/
def buildTerm : TermArg → Except KnowledgeError Term
  | .term t => .ok t
  | .str s => getTermFromString s
  | .num v => .ok (.number v)

/-- `build_terms`: maps each argument to a term, propagating the first
failure. -/
def buildTerms : List TermArg → Except KnowledgeError (List Term)
  | [] => .ok []
  | a :: as' =>
    match buildTerm a with
    | .error e => .error e
    | .ok t =>
      match buildTerms as' with
      | .error e => .error e
      | .ok ts => .ok (t :: ts)

/-- `Atom.__init__` with an explicit `Predicate`: the declared arity must
equal the number of supplied arguments (checked before `build_terms`),
else `AtomMalformedException(predicate.arity, len(args))`. -/
def mkAtom (p : Predicate) (args : List TermArg) (weight : ℚ)
    (provenance : Option FileDefinedClause) : Except KnowledgeError Atom :=
  if p.arity ≠ args.length then .error (.atomMalformed p.arity args.length)
  else
    match buildTerms args with
    | .error e => .error e
    | .ok ts => .ok ⟨p, ts, weight, provenance⟩

/-- `Atom.__init__` with a bare name string: the predicate arity is
inferred from the argument count, so construction cannot fail on arity. -/
def mkAtomOfName (name : String) (args : List Term) : Atom :=
  ⟨⟨name, args.length, false⟩, args, 1, none⟩

/-- `Atom.arity()` is the predicate arity. -/
def Atom.arity (a : Atom) : Int :=
  a.predicate.arity

/-- `Atom.is_grounded()`: every term is constant. -/
def Atom.is_grounded (a : Atom) : Bool :=
  a.terms.all fun t => t.is_constant

/-- `Atom.get_number_of_variables()`. -/
def Atom.get_number_of_variables (a : Atom) : Nat :=
  (a.terms.filter fun t => !t.is_constant).length

/-- `Literal`: an atom plus a negation flag.  `Literal.__init__` rebuilds
the atom with weight forced to the default 1.0. -/
structure Literal where
  atom : Atom
  negated : Bool

/-- `Literal(atom, negated)`. -/
def mkLiteral (a : Atom) (negated : Bool) : Literal :=
  ⟨⟨a.predicate, a.terms, 1, a.provenance⟩, negated⟩

/-- `AtomClause`: wraps a copy of the atom (built without provenance) and
takes the source atom's provenance as the clause provenance. -/
structure AtomClause where
  atom : Atom
  provenance : Option FileDefinedClause

/-- `AtomClause(atom)`. -/
def mkAtomClause (a : Atom) : AtomClause :=
  ⟨⟨a.predicate, a.terms, a.weight, none⟩, a.provenance⟩

/-- `HornClause`: a head atom and an ordered body of literals. -/
structure HornClause where
  head : Atom
  body : List Literal
  provenance : Option FileDefinedClause

/-- The positional variable name `"X{}".format(i)`. -/
def varName (i : Nat) : String :=
  "X" ++ natStr i

/-- `get_variable_atom` on a predicate: an atom of that predicate whose
terms are the fresh variables `X0 ... X(n-1)` (an empty list when the
arity is negative, in which case the atom constructor rejects it). -/
def getVariableAtom (p : Predicate) : Except KnowledgeError Atom :=
  mkAtom p ((List.range p.arity.toNat).map fun i => .term (.var (varName i))) 1 none

/-- Lookup in a dict keyed by terms (Python hashing and `__eq__` compare
`key()` tuples); the association list records insertions. -/
def lookupByTermKey (m : List (Term × String)) (t : Term) : Option String :=
  match m with
  | [] => none
  | e :: rest => if termKey e.1 = termKey t then some e.2 else lookupByTermKey rest t

/-- Inside `get_renamed_atom`, a constant term is kept, except that a
`Quote` is rewritten to a bare `Constant` carrying its unquoted value. -/
def constKeep : Term → Term
  | .quote _ v _ => .constant v
  | t => t

/-- The term loop of `get_renamed_atom`: constants are kept (quotes
rewritten); a non-constant term gets the positional name `X{index}` from
`term_map`, a fresh one being assigned on first occurrence.  The names are
appended as raw strings, exactly as in the source, to be converted back to
terms by `build_terms` in the atom constructor. -/
def renameLoop : List Term → List (Term × String) → Nat → List TermArg
  | [], _, _ => []
  | t :: rest, m, index =>
    if t.is_constant then
      .term (constKeep t) :: renameLoop rest m index
    else
      match lookupByTermKey m t with
      | some name => .str name :: renameLoop rest m index
      | none => .str (varName index) :: renameLoop rest ((t, varName index) :: m) (index + 1)

/-- `get_renamed_atom`: rebuilds the atom from the renamed argument list
with the same predicate (and the constructor defaults: weight 1.0, no
provenance). -/
def getRenamedAtom (a : Atom) : Except KnowledgeError Atom :=
  mkAtom a.predicate (renameLoop a.terms [] 0) 1 none

/-- `get_renamed_literal`: renames the atom and preserves the negation
flag. -/
def getRenamedLiteral (l : Literal) : Except KnowledgeError Literal :=
  match getRenamedAtom l.atom with
  | .error e => .error e
  | .ok a => .ok (mkLiteral a l.negated)

/-- Lookup in the substitution dict of `get_substitution` (keyed by term
`key()` tuples, like every Python dict of terms). -/
def lookupSubst (m : List (Term × Term)) (t : Term) : Option Term :=
  match m with
  | [] => none
  | e :: rest => if termKey e.1 = termKey t then some e.2 else lookupSubst rest t

/-- The position-by-position loop of `get_substitution`: a constant generic
term must equal the specific term; otherwise the generic term is bound to
the specific term on first occurrence and every later occurrence must
agree with the existing binding.  (With malformed atoms Python would raise
IndexError while indexing `terms[i]`; the model returns no unifier if the
lists are exhausted unevenly, which no well-formed pair reaches.) -/
def substLoop : List Term → List Term → List (Term × Term) → Option (List (Term × Term))
  | [], [], subs => some subs
  | g :: gs, s :: ss, subs =>
    if g.is_constant && !pyTermEq g s then none
    else
      match lookupSubst subs g with
      | none => substLoop gs ss ((g, s) :: subs)
      | some prev => if !pyTermEq prev s then none else substLoop gs ss subs
  | _, _, _ => none

/-- `get_substitution(generic_atom, specific_atom)`: `None` when the
predicates differ (Python `!=`, dispatched on the generic atom's
predicate); otherwise the loop over the first `generic_atom.arity()` term
positions. -/
def getSubstitution (generic specific : Atom) : Option (List (Term × Term)) :=
  if !pyPredEq generic.predicate specific.predicate then none
  else substLoop (generic.terms.take generic.predicate.arity.toNat)
    (specific.terms.take generic.predicate.arity.toNat) []

/-- `get_variable_indices`: positions of the non-constant terms. -/
def getVariableIndices (a : Atom) : List Nat :=
  (List.range a.predicate.arity.toNat).filter fun i =>
    !(a.terms.getD i (.constant "")).is_constant

/-- `TermType(variable, number)`: `number` is `bool or None`, `None`
meaning unknown. -/
structure TermType where
  isVariable : Bool
  number : Option Bool
deriving DecidableEq

/-- `TermType.is_compatible`: compatible when either `number` is `None` or
both agree. -/
def TermType.is_compatible (self other : TermType) : Bool :=
  match self.number, other.number with
  | none, _ => true
  | _, none => true
  | some a, some b => a == b

/-- Python `self.number or other.number` on `bool or None` values: the
left operand is returned when it is truthy (`True`), otherwise the right
operand (so `False or None` is `None`, while `None or False` is `False`). -/
def pyOrNumber (a b : Option Bool) : Option Bool :=
  if a = some true then some true else b

/-- `TermType.update_type`: `None` when incompatible, else the field-wise
Python `or` of the two types. -/
def TermType.update_type (self other : TermType) : Option TermType :=
  if !self.is_compatible other then none
  else some ⟨self.isVariable || other.isVariable, pyOrNumber self.number other.number⟩

/-- Python `==` between two elements of a `key()` tuple. -/
def pyValEq (a b : PyVal) : Bool :=
  decide (a = b)

/-- Python `<` between two elements of a `key()` tuple; `none` is the
TypeError Python raises when comparing a string with a number. -/
def pyValLt : PyVal → PyVal → Option Bool
  | .s a, .s b => some (pyStrLt a.data b.data)
  | .q a, .q b => some (decide (a < b))
  | _, _ => none
where
  pyStrLt : List Char → List Char → Bool
    | [], [] => false
    | [], _ :: _ => true
    | _ :: _, [] => false
    | c :: cs, d :: ds => if c = d then pyStrLt cs ds else decide (c.toNat < d.toNat)

/-- Python `<=` between key elements. -/
def pyValLe (a b : PyVal) : Option Bool :=
  match pyValLt a b with
  | none => none
  | some lt => some (lt || pyValEq a b)

/-- Python `>` between key elements. -/
def pyValGt (a b : PyVal) : Option Bool :=
  pyValLt b a

/-- Python `>=` between key elements. -/
def pyValGe (a b : PyVal) : Option Bool :=
  pyValLe b a

/-- Python `tuple.__lt__`: compare the first non-equal pair of elements
(the prefix relation decides ties); the element comparison may raise. -/
def pyTupleLt : List PyVal → List PyVal → Option Bool
  | [], [] => some false
  | [], _ :: _ => some true
  | _ :: _, [] => some false
  | x :: xs, y :: ys => if pyValEq x y then pyTupleLt xs ys else pyValLt x y

/-- Python `tuple.__le__`. -/
def pyTupleLe : List PyVal → List PyVal → Option Bool
  | [], [] => some true
  | [], _ :: _ => some true
  | _ :: _, [] => some false
  | x :: xs, y :: ys => if pyValEq x y then pyTupleLe xs ys else pyValLe x y

/-- Python `tuple.__gt__`. -/
def pyTupleGt : List PyVal → List PyVal → Option Bool
  | [], [] => some false
  | [], _ :: _ => some false
  | _ :: _, [] => some true
  | x :: xs, y :: ys => if pyValEq x y then pyTupleGt xs ys else pyValGt x y

/-- Python `tuple.__ge__`. -/
def pyTupleGe : List PyVal → List PyVal → Option Bool
  | [], [] => some true
  | [], _ :: _ => some false
  | _ :: _, [] => some true
  | x :: xs, y :: ys => if pyValEq x y then pyTupleGe xs ys else pyValGe x y

/-- `Term.__lt__`: compares `(len(self_key),) + self_key` against
`(len(other_key),) + other_key`. -/
def termLt (a b : Term) : Option Bool :=
  pyTupleLt (.q (termKey a).length :: termKey a) (.q (termKey b).length :: termKey b)

/-- `Term.__le__`: compares the bare keys. -/
def termLe (a b : Term) : Option Bool :=
  pyTupleLe (termKey a) (termKey b)

/-- `Term.__gt__`: compares the bare keys. -/
def termGt (a b : Term) : Option Bool :=
  pyTupleGt (termKey a) (termKey b)

/-- `Term.__ge__`: compares the bare keys. -/
def termGe (a b : Term) : Option Bool :=
  pyTupleGe (termKey a) (termKey b)

/-- An element of the `key()` tuple of an `Atom`, `Literal`, `AtomClause`
or `HornClause`: a weight (float), a predicate, the tuple of terms (each
represented by its own `key()` tuple, since terms compare and hash by
`key()`), or a negation flag (bool). -/
inductive CKey where
  | w (v : ℚ)
  | pr (name : String) (arity : Int) (template : Bool)
  | ts (keys : List (List PyVal))
  | ng (b : Bool)
deriving DecidableEq

/-- `Atom.key()` is `(weight, predicate, tuple(terms))`. -/
def atomCKey (a : Atom) : List CKey :=
  [.w a.weight, .pr a.predicate.name a.predicate.arity a.predicate.template,
    .ts (a.terms.map termKey)]

/-- `Literal.key()` is `(negated,) + Atom.key()`. -/
def literalCKey (l : Literal) : List CKey :=
  .ng l.negated :: atomCKey l.atom

/-- `HornClause.key()` concatenates the head atom key and every body
literal key into a single flat tuple. -/
def hornCKey (h : HornClause) : List CKey :=
  atomCKey h.head ++ h.body.flatMap literalCKey

/-- Python `==` between two clause-key elements.  A bool equals a float of
the same numeric value (`False == 0.0`); predicates compare by
`Predicate.__eq__` (left dispatch); term tuples compare element-wise by
term `key()`; every other mixed pair is unequal. -/
def ckeyEq : CKey → CKey → Bool
  | .w a, .w b => decide (a = b)
  | .w a, .ng b => decide (a = (if b then 1 else 0 : ℚ))
  | .ng a, .w b => decide ((if a then 1 else 0 : ℚ) = b)
  | .ng a, .ng b => a == b
  | .pr n1 a1 t1, .pr n2 a2 t2 => pyPredEq ⟨n1, a1, t1⟩ ⟨n2, a2, t2⟩
  | .ts a, .ts b => decide (a = b)
  | _, _ => false

/-- Python `==` between two flat clause keys (tuple equality). -/
def ckeyListEq : List CKey → List CKey → Bool
  | [], [] => true
  | x :: xs, y :: ys => ckeyEq x y && ckeyListEq xs ys
  | _, _ => false

/-- Python `==` on atoms (`Clause.__eq__` with `Atom.key()`). -/
def pyAtomEq (a b : Atom) : Bool :=
  ckeyListEq (atomCKey a) (atomCKey b)

/-- Python `==` on literals. -/
def pyLiteralEq (a b : Literal) : Bool :=
  ckeyListEq (literalCKey a) (literalCKey b)

/-- Python `==` on atom clauses (`key()` delegates to the inner atom). -/
def pyAtomClauseEq (a b : AtomClause) : Bool :=
  ckeyListEq (atomCKey a.atom) (atomCKey b.atom)

/-- Python `==` on Horn clauses (flat key tuples). -/
def pyHornEq (a b : HornClause) : Bool :=
  ckeyListEq (hornCKey a) (hornCKey b)

/-- A deterministic combiner standing in for Python's tuple hashing; any
function of the key gives `x == y implies hash(x) == hash(y)` as long as
equal keys hash equally. -/
def hashMix (a b : Nat) : Nat :=
  a * 31 + b

/-- Hash of a Python string, as a function of its code points. -/
def strHash (s : String) : Nat :=
  s.data.foldl (fun a c => hashMix a c.toNat) 7

/-- Hash of an integer. -/
def intHash (i : Int) : Nat :=
  if i < 0 then 2 * i.natAbs + 1 else 2 * i.natAbs

/-- Hash of a number; Python hashes equal numbers equally across int,
float and bool. -/
def ratHash (v : ℚ) : Nat :=
  hashMix (intHash v.num) v.den

/-- Hash of one term-key element. -/
def pyValHash : PyVal → Nat
  | .s v => hashMix 1 (strHash v)
  | .q v => hashMix 2 (ratHash v)

/-- `Term.__hash__` is `hash(self.key())`: a function of the key tuple. -/
def termHash (t : Term) : Nat :=
  (termKey t).foldl (fun a v => hashMix a (pyValHash v)) 3

/-- Hash of one clause-key element.  A bool hashes as its numeric value
(Python `hash(False) == hash(0.0)`); a predicate hashes by its `key()`
`(name, arity)`, so the template flag is not inspected. -/
def ckeyHash : CKey → Nat
  | .w v => hashMix 4 (ratHash v)
  | .ng b => hashMix 4 (ratHash (if b then 1 else 0))
  | .pr n a _ => hashMix 5 (hashMix (strHash n) (intHash a))
  | .ts keys => hashMix 6 (keys.foldl (fun acc k =>
      hashMix acc (k.foldl (fun a v => hashMix a (pyValHash v)) 3)) 11)

/-- Hash of a flat clause key. -/
def ckeyListHash (l : List CKey) : Nat :=
  l.foldl (fun a k => hashMix a (ckeyHash k)) 13

/-- `Atom.__hash__` is `hash(self.key())`. -/
def atomHash (a : Atom) : Nat :=
  ckeyListHash (atomCKey a)

/-- `Literal.__hash__`. -/
def literalHash (l : Literal) : Nat :=
  ckeyListHash (literalCKey l)

/-- `AtomClause.__hash__`. -/
def atomClauseHash (c : AtomClause) : Nat :=
  ckeyListHash (atomCKey c.atom)

/-- `HornClause.__hash__`. -/
def hornHash (h : HornClause) : Nat :=
  ckeyListHash (hornCKey h)

/-- `Atom.__repr__`: a zero-arity atom renders as the bare name, other
atoms as `name(t1, ..., tn)`, in both cases prefixed by `weight::` when
the weight differs from the default 1.0. -/
def strAtom (a : Atom) : String :=
  if a.terms.isEmpty then
    if a.weight = 1 then a.predicate.name
    else numStr a.weight ++ WEIGHT_SEPARATOR ++ a.predicate.name
  else
    if a.weight = 1 then
      a.predicate.name ++ "(" ++ String.intercalate commaSpace (a.terms.map strTerm) ++ ")"
    else
      numStr a.weight ++ WEIGHT_SEPARATOR ++ a.predicate.name ++ "(" ++
        String.intercalate commaSpace (a.terms.map strTerm) ++ ")"

/-- `Literal.__repr__`: prefixes `not ` when negated. -/
def strLiteral (l : Literal) : String :=
  if l.negated then NEGATION_KEY ++ " " ++ strAtom l.atom else strAtom l.atom

/-- `AtomClause.__repr__`: the atom text followed by the end sign. -/
def strAtomClause (c : AtomClause) : String :=
  strAtom c.atom ++ END_SIGN

/-- `format_horn_clause(head, body)`.  When the body is empty the local
variable `body` is rebound to `Literal(Atom("true"))`; joining then
iterates that literal through `Atom.__getitem__`, which yields the str of
each of its terms — and the 0-arity `true` literal has no terms, so the
join is empty.  A non-empty body joins the str of each literal. -/
def formatHornClause (head : Atom) (body : List Literal) : String :=
  if body.isEmpty then
    strAtom head ++ " " ++ IMPLICATION_SIGN ++ " " ++
      String.intercalate commaSpace
        ((mkLiteral (mkAtomOfName "true" []) false).atom.terms.map strTerm) ++ END_SIGN
  else
    strAtom head ++ " " ++ IMPLICATION_SIGN ++ " " ++
      String.intercalate commaSpace (body.map strLiteral) ++ END_SIGN

/-- `HornClause.__repr__`. -/
def strHornClause (h : HornClause) : String :=
  formatHornClause h.head h.body

/-- The length-prefixed comparison tuple `(len(key),) + key` built by
`Term.__lt__`. -/
def lenPrefKey (t : Term) : List PyVal :=
  .q (termKey t).length :: termKey t

/-- Numeric value of a digit character. -/
def digitVal (c : Char) : Nat :=
  c.toNat - 48

/-- Numeric value of a digit string, most significant first. -/
def digitsVal (l : List Char) : Nat :=
  l.foldl (fun a c => a * 10 + digitVal c) 0

/-- Two renamed argument lists agree up to term `key()`: kept terms have
equal keys and assigned names are identical strings. -/
def ArgKeyEq : TermArg → TermArg → Prop
  | .term t, .term u => termKey t = termKey u
  | .str a, .str b => a = b
  | .num a, .num b => a = b
  | _, _ => False

/-- The two `term_map` dicts of two lockstep renaming runs are aligned:
entries pair up with identical assigned names, and an entry of one map
matches a remaining term of its run exactly when the corresponding entry
of the other map matches the corresponding term. -/
def MapAligned (z : List (Term × Term)) (m1 m2 : List (Term × String)) : Prop :=
  List.Forall₂ (fun e1 e2 => e1.2 = e2.2 ∧
    ∀ p ∈ z, p.1.is_constant = false →
      (termKey e1.1 = termKey p.1 ↔ termKey e2.1 = termKey p.2)) m1 m2

/-- Two term lists are identical except for variable names with the same
variable-sharing pattern: same length; position-wise the same constancy,
with key-equal constant terms; and non-constant terms at two positions are
equal in one list exactly when they are equal in the other. -/
def SamePattern (l1 l2 : List Term) : Prop :=
  l1.length = l2.length ∧
  (∀ p ∈ l1.zip l2, p.1.is_constant = p.2.is_constant ∧
      (p.1.is_constant = true → termKey p.1 = termKey p.2)) ∧
  (∀ p ∈ l1.zip l2, ∀ q ∈ l1.zip l2, p.1.is_constant = false →
      q.1.is_constant = false → (termKey p.1 = termKey q.1 ↔ termKey p.2 = termKey q.2))

/-! ### Supporting lemmas -/

theorem digitVal_natDigitChar {n : Nat} (h : n < 10) : digitVal (natDigitChar n) = n := by
  interval_cases n <;> decide

theorem digitsVal_natDigitsAux :
    ∀ (fuel n : Nat), n < fuel → digitsVal (natDigitsAux fuel n) = n := by
  intro fuel
  induction fuel with
  | zero => intro n h; exact absurd h (Nat.not_lt_zero n)
  | succ fuel ih =>
    intro n h
    rw [natDigitsAux]
    split
    · next h10 =>
      simp only [digitsVal, List.foldl_cons, List.foldl_nil, Nat.zero_mul, Nat.zero_add]
      exact digitVal_natDigitChar h10
    · next h10 =>
      have hd : n / 10 < n := Nat.div_lt_self (by omega) (by decide)
      have ihv := ih (n / 10) (by omega)
      simp only [digitsVal, List.foldl_append, List.foldl_cons, List.foldl_nil] at ihv ⊢
      rw [ihv, digitVal_natDigitChar (Nat.mod_lt n (by decide))]
      omega

theorem digitsVal_natDigits (n : Nat) : digitsVal (natDigits n) = n :=
  digitsVal_natDigitsAux (n + 1) n (Nat.lt_succ_self n)

theorem natDigits_inj {m n : Nat} (h : natDigits m = natDigits n) : m = n := by
  have := congrArg digitsVal h
  rwa [digitsVal_natDigits, digitsVal_natDigits] at this

theorem varName_data (i : Nat) : (varName i).data = 'X' :: natDigits i := by
  show ("X" ++ natStr i).data = _
  rw [String.data_append]
  rfl

theorem varName_inj {i j : Nat} (h : varName i = varName j) : i = j := by
  have hd := congrArg String.data h
  rw [varName_data, varName_data] at hd
  exact natDigits_inj (List.cons.injEq .. ▸ hd).2

theorem varName_ne {i j : Nat} (h : i ≠ j) : varName i ≠ varName j :=
  fun he => h (varName_inj he)

theorem getTermFromString_varName (k : Nat) :
    getTermFromString (varName k) = .ok (.var (varName k)) := by
  rw [getTermFromString, varName_data]
  simp

/-- `termKey` only depends on the pieces `constKeep` preserves: rewriting a
quote to a bare constant of the unquoted value keeps the key. -/
theorem termKey_constKeep (t : Term) : termKey (constKeep t) = termKey t := by
  cases t <;> rfl

theorem constKeep_constKeep (t : Term) : constKeep (constKeep t) = constKeep t := by
  cases t <;> rfl

theorem is_constant_constKeep {t : Term} (h : t.is_constant = true) :
    (constKeep t).is_constant = true := by
  cases t <;> simp_all [constKeep, Term.is_constant]

theorem buildTerms_map_term (ts : List Term) :
    buildTerms (ts.map .term) = .ok ts := by
  induction ts with
  | nil => rfl
  | cons t ts ih => simp [buildTerms, buildTerm, ih]

theorem mkAtom_ok_iff {p : Predicate} {args : List TermArg} {w : ℚ}
    {pv : Option FileDefinedClause} {a : Atom} :
    mkAtom p args w pv = .ok a ↔
      (p.arity = args.length ∧ ∃ ts, buildTerms args = .ok ts ∧ a = ⟨p, ts, w, pv⟩) := by
  rw [mkAtom]
  split
  · next h => simp [h]
  · next h =>
    rw [not_not] at h
    cases hb : buildTerms args with
    | error e => simp [h]
    | ok ts =>
      simp only [h, true_and]
      constructor
      · intro hok
        exact ⟨ts, rfl, (Except.ok.injEq .. ▸ hok).symm⟩
      · rintro ⟨ts', hts', rfl⟩
        rw [Except.ok.injEq] at hts'
        rw [hts']

theorem pyPredEq_refl (p : Predicate) : pyPredEq p p = true := by
  cases p with
  | mk n a t => cases t <;> simp [pyPredEq]

theorem ckeyEq_refl (k : CKey) : ckeyEq k k = true := by
  cases k with
  | w v => simp [ckeyEq]
  | pr n a t => exact pyPredEq_refl ⟨n, a, t⟩
  | ts l => simp [ckeyEq]
  | ng b => simp [ckeyEq]

theorem ckeyListEq_refl (l : List CKey) : ckeyListEq l l = true := by
  induction l with
  | nil => rfl
  | cons k l ih => simp [ckeyListEq, ckeyEq_refl, ih]

theorem pyAtomEq_refl (a : Atom) : pyAtomEq a a = true :=
  ckeyListEq_refl _

/-- Equal clause-key elements hash equally (the predicate hash only reads
the `(name, arity)` key; a bool hashes as its numeric value). -/
theorem ckeyHash_congr {x y : CKey} (h : ckeyEq x y = true) : ckeyHash x = ckeyHash y := by
  cases x <;> cases y <;>
    simp_all [ckeyEq, ckeyHash, pyPredEq, decide_eq_true_eq, Bool.and_eq_true]

theorem ckeyListHash_congr {xs ys : List CKey} (h : ckeyListEq xs ys = true) :
    ckeyListHash xs = ckeyListHash ys := by
  suffices hgen : ∀ (xs ys : List CKey) (acc : Nat), ckeyListEq xs ys = true →
      xs.foldl (fun a k => hashMix a (ckeyHash k)) acc =
        ys.foldl (fun a k => hashMix a (ckeyHash k)) acc from hgen xs ys 13 h
  intro xs
  induction xs with
  | nil => intro ys acc h; cases ys <;> simp_all [ckeyListEq]
  | cons x xs ih =>
    intro ys acc h
    cases ys with
    | nil => simp_all [ckeyListEq]
    | cons y ys =>
      rw [ckeyListEq, Bool.and_eq_true] at h
      simp only [List.foldl_cons, ckeyHash_congr h.1]
      exact ih ys _ h.2

theorem listTermsHasTemplate_iff {l : List Term} :
    listTermsHasTemplate l = true ↔ ∃ t ∈ l, t.is_template = true := by
  induction l with
  | nil => simp [listTermsHasTemplate]
  | cons t ts ih => rw [listTermsHasTemplate, Bool.or_eq_true, ih]; simp

theorem termKey_var_eq_iff {a b : String} :
    termKey (Term.var a) = termKey (Term.var b) ↔ a = b := by
  show [PyVal.s "type", PyVal.s a] = [PyVal.s "type", PyVal.s b] ↔ a = b
  simp

/-! ### Lemmas about the renaming loop -/

theorem MapAligned.mono {z z' : List (Term × Term)} {m1 m2 : List (Term × String)}
    (hsub : ∀ p ∈ z', p ∈ z) (h : MapAligned z m1 m2) : MapAligned z' m1 m2 :=
  List.Forall₂.imp (fun _ _ hr => ⟨hr.1, fun p hp hc => hr.2 p (hsub p hp) hc⟩) h

theorem lookup_aligned {z : List (Term × Term)} {m1 m2 : List (Term × String)}
    (hm : MapAligned z m1 m2) {u v : Term} (huv : (u, v) ∈ z)
    (hu : u.is_constant = false) :
    lookupByTermKey m1 u = lookupByTermKey m2 v := by
  induction hm with
  | nil => rfl
  | @cons e1 e2 r1 r2 he _ ih =>
    obtain ⟨hsnd, hiff⟩ := he
    have hkey := hiff (u, v) huv hu
    rw [lookupByTermKey, lookupByTermKey]
    by_cases hk : termKey e1.1 = termKey u
    · rw [if_pos hk, if_pos (hkey.mp hk), hsnd]
    · rw [if_neg hk, if_neg (fun hk2 => hk (hkey.mpr hk2))]
      exact ih

/-- Two renaming runs over pattern-equivalent term lists, with aligned
maps and the same next index, produce key-equal argument lists. -/
theorem renameLoop_pattern :
    ∀ (l1 l2 : List Term) (m1 m2 : List (Term × String)) (idx : Nat),
      l1.length = l2.length →
      (∀ p ∈ l1.zip l2, p.1.is_constant = p.2.is_constant ∧
          (p.1.is_constant = true → termKey p.1 = termKey p.2)) →
      (∀ p ∈ l1.zip l2, ∀ q ∈ l1.zip l2, p.1.is_constant = false →
          q.1.is_constant = false → (termKey p.1 = termKey q.1 ↔ termKey p.2 = termKey q.2)) →
      MapAligned (l1.zip l2) m1 m2 →
      List.Forall₂ ArgKeyEq (renameLoop l1 m1 idx) (renameLoop l2 m2 idx) := by
  intro l1
  induction l1 with
  | nil =>
    intro l2 m1 m2 idx hlen _ _ _
    rw [List.length_nil] at hlen
    rw [(List.length_eq_zero.mp hlen.symm)]
    exact List.Forall₂.nil
  | cons u r1 ih =>
    intro l2 m1 m2 idx hlen hconsts hshare hm
    cases l2 with
    | nil => simp at hlen
    | cons v r2 =>
      rw [List.zip_cons_cons] at hconsts hshare hm
      have hlen' : r1.length = r2.length := by simpa using hlen
      have hhead := hconsts (u, v) (List.mem_cons_self _ _)
      have htail_consts : ∀ p ∈ r1.zip r2, p.1.is_constant = p.2.is_constant ∧
          (p.1.is_constant = true → termKey p.1 = termKey p.2) :=
        fun p hp => hconsts p (List.mem_cons_of_mem _ hp)
      have htail_share : ∀ p ∈ r1.zip r2, ∀ q ∈ r1.zip r2, p.1.is_constant = false →
          q.1.is_constant = false → (termKey p.1 = termKey q.1 ↔ termKey p.2 = termKey q.2) :=
        fun p hp q hq => hshare p (List.mem_cons_of_mem _ hp) q (List.mem_cons_of_mem _ hq)
      cases hc : u.is_constant with
      | true =>
        have hv : v.is_constant = true := hhead.1 ▸ hc
        rw [renameLoop, renameLoop, if_pos hc, if_pos hv]
        refine List.Forall₂.cons ?_ ?_
        · show termKey (constKeep u) = termKey (constKeep v)
          rw [termKey_constKeep, termKey_constKeep]
          exact hhead.2 hc
        · exact ih r2 m1 m2 idx hlen' htail_consts htail_share
            (hm.mono fun p hp => List.mem_cons_of_mem _ hp)
      | false =>
        have hv : v.is_constant = false := hhead.1 ▸ hc
        have hl := lookup_aligned hm (List.mem_cons_self _ _) hc
        rw [renameLoop, renameLoop, if_neg (by simp [hc]), if_neg (by simp [hv])]
        cases hlu : lookupByTermKey m1 u with
        | some name =>
          rw [hlu] at hl
          rw [← hl]
          refine List.Forall₂.cons rfl ?_
          exact ih r2 m1 m2 idx hlen' htail_consts htail_share
            (hm.mono fun p hp => List.mem_cons_of_mem _ hp)
        | none =>
          rw [hlu] at hl
          rw [← hl]
          refine List.Forall₂.cons rfl ?_
          refine ih r2 _ _ (idx + 1) hlen' htail_consts htail_share ?_
          refine List.Forall₂.cons ⟨rfl, ?_⟩
            (hm.mono fun p hp => List.mem_cons_of_mem _ hp)
          intro p hp hpc
          exact hshare (u, v) (List.mem_cons_self _ _) p (List.mem_cons_of_mem _ hp) hc hpc

/-- Built term lists of key-equal argument lists are key-equal. -/
theorem buildTerms_argKeyEq :
    ∀ {args1 args2 : List TermArg} {ts1 ts2 : List Term},
      List.Forall₂ ArgKeyEq args1 args2 →
      buildTerms args1 = .ok ts1 → buildTerms args2 = .ok ts2 →
      ts1.map termKey = ts2.map termKey := by
  intro args1 args2 ts1 ts2 hall
  induction hall generalizing ts1 ts2 with
  | nil =>
    intro h1 h2
    rw [buildTerms] at h1 h2
    rw [Except.ok.injEq] at h1 h2
    rw [← h1, ← h2]
  | @cons a b as bs hr _ ih =>
    intro h1 h2
    rw [buildTerms] at h1 h2
    cases a with
    | term t =>
      cases b with
      | term u =>
        have hku : termKey t = termKey u := hr
        cases hrest1 : buildTerms as with
        | error e => rw [hrest1] at h1; simp [buildTerm] at h1
        | ok rest1 =>
          cases hrest2 : buildTerms bs with
          | error e => rw [hrest2] at h2; simp [buildTerm] at h2
          | ok rest2 =>
            rw [hrest1] at h1
            rw [hrest2] at h2
            simp only [buildTerm, Except.ok.injEq] at h1 h2
            rw [← h1, ← h2, List.map_cons, List.map_cons, hku, ih hrest1 hrest2]
      | str s => exact absurd hr (by simp [ArgKeyEq])
      | num q => exact absurd hr (by simp [ArgKeyEq])
    | str s =>
      cases b with
      | term u => exact absurd hr (by simp [ArgKeyEq])
      | str s2 =>
        have hs : s = s2 := hr
        subst hs
        cases hbt : buildTerm (.str s) with
        | error e => rw [hbt] at h1 h2; simp at h1
        | ok t =>
          rw [hbt] at h1 h2
          cases hrest1 : buildTerms as with
          | error e => rw [hrest1] at h1; simp at h1
          | ok rest1 =>
            cases hrest2 : buildTerms bs with
            | error e => rw [hrest2] at h2; simp at h2
            | ok rest2 =>
              rw [hrest1] at h1
              rw [hrest2] at h2
              simp only [Except.ok.injEq] at h1 h2
              rw [← h1, ← h2, List.map_cons, List.map_cons, ih hrest1 hrest2]
      | num q => exact absurd hr (by simp [ArgKeyEq])
    | num q =>
      cases b with
      | term u => exact absurd hr (by simp [ArgKeyEq])
      | str s => exact absurd hr (by simp [ArgKeyEq])
      | num q2 =>
        have hq : q = q2 := hr
        subst hq
        cases hrest1 : buildTerms as with
        | error e => rw [hrest1] at h1; simp [buildTerm] at h1
        | ok rest1 =>
          cases hrest2 : buildTerms bs with
          | error e => rw [hrest2] at h2; simp [buildTerm] at h2
          | ok rest2 =>
            rw [hrest1] at h1
            rw [hrest2] at h2
            simp only [buildTerm, Except.ok.injEq] at h1 h2
            rw [← h1, ← h2, List.map_cons, List.map_cons, ih hrest1 hrest2]

theorem lookupByTermKey_mem {m : List (Term × String)} {u : Term} {n : String}
    (h : lookupByTermKey m u = some n) : ∃ e ∈ m, e.2 = n := by
  induction m with
  | nil => simp [lookupByTermKey] at h
  | cons e rest ih =>
    rw [lookupByTermKey] at h
    split at h
    · exact ⟨e, List.mem_cons_self _ _, (Option.some.injEq .. ▸ h)⟩
    · obtain ⟨e', he', hn⟩ := ih h
      exact ⟨e', List.mem_cons_of_mem _ he', hn⟩

/-- Looking a renamed variable up in the image of a `term_map` under
`e ↦ (Variable(e.name), e.name)` finds the name exactly when some entry
carries that name. -/
theorem lookup_mapped_some {m : List (Term × String)} {n : String}
    (h : ∃ e ∈ m, e.2 = n) :
    lookupByTermKey (m.map fun e => (Term.var e.2, e.2)) (.var n) = some n := by
  induction m with
  | nil => simp at h
  | cons e rest ih =>
    rw [List.map_cons, lookupByTermKey]
    by_cases he : e.2 = n
    · rw [if_pos (termKey_var_eq_iff.mpr he), he]
    · rw [if_neg (fun hk => he (termKey_var_eq_iff.mp hk))]
      refine ih ?_
      obtain ⟨e', he', hn⟩ := h
      cases List.mem_cons.mp he' with
      | inl heq => exact absurd (heq ▸ hn) he
      | inr hmem => exact ⟨e', hmem, hn⟩

theorem lookup_mapped_none {m : List (Term × String)} {n : String}
    (h : ∀ e ∈ m, e.2 ≠ n) :
    lookupByTermKey (m.map fun e => (Term.var e.2, e.2)) (.var n) = none := by
  induction m with
  | nil => rfl
  | cons e rest ih =>
    rw [List.map_cons, lookupByTermKey]
    rw [if_neg (fun hk => h e (List.mem_cons_self _ _) (termKey_var_eq_iff.mp hk))]
    exact ih fun e' he' => h e' (List.mem_cons_of_mem _ he')

/-- Renaming the terms built from a renaming run reproduces the run: with
a map whose names are `X0 ... X(idx-1)`, every kept constant stays kept
and every assigned variable `Xk` is assigned the very name `Xk` again. -/
theorem renameLoop_idem :
    ∀ (l : List Term) (m : List (Term × String)) (idx : Nat) (bts : List Term),
      (∀ e ∈ m, ∃ k, k < idx ∧ e.2 = varName k) →
      buildTerms (renameLoop l m idx) = .ok bts →
      renameLoop bts (m.map fun e => (Term.var e.2, e.2)) idx = renameLoop l m idx := by
  intro l
  induction l with
  | nil =>
    intro m idx bts _ hb
    rw [renameLoop, buildTerms, Except.ok.injEq] at hb
    rw [renameLoop, ← hb]
    rw [renameLoop]
  | cons u r ih =>
    intro m idx bts hinv hb
    cases hc : u.is_constant with
    | true =>
      rw [renameLoop, if_pos hc] at hb ⊢
      rw [buildTerms] at hb
      simp only [buildTerm] at hb
      cases hrest : buildTerms (renameLoop r m idx) with
      | error e => rw [hrest] at hb; simp at hb
      | ok rest =>
        rw [hrest, Except.ok.injEq] at hb
        rw [← hb, renameLoop, if_pos (is_constant_constKeep hc), constKeep_constKeep,
          ih m idx rest hinv hrest]
    | false =>
      rw [renameLoop, if_neg (by simp [hc])] at hb ⊢
      cases hlu : lookupByTermKey m u with
      | some name =>
        rw [hlu] at hb
        obtain ⟨e, hem, hen⟩ := lookupByTermKey_mem hlu
        obtain ⟨k, _, hk⟩ := hinv e hem
        have hname : name = varName k := by rw [← hen, hk]
        rw [buildTerms] at hb
        have hbt : buildTerm (.str name) = .ok (.var name) := by
          rw [buildTerm, hname, getTermFromString_varName k]
        rw [hbt] at hb
        cases hrest : buildTerms (renameLoop r m idx) with
        | error e' => rw [hrest] at hb; simp at hb
        | ok rest =>
          rw [hrest, Except.ok.injEq] at hb
          rw [← hb, renameLoop]
          rw [if_neg (by simp [Term.is_constant])]
          rw [lookup_mapped_some ⟨e, hem, hen⟩]
          rw [ih m idx rest hinv hrest]
      | none =>
        rw [hlu] at hb
        rw [buildTerms] at hb
        have hbt : buildTerm (.str (varName idx)) = .ok (.var (varName idx)) := by
          rw [buildTerm, getTermFromString_varName idx]
        rw [hbt] at hb
        cases hrest : buildTerms (renameLoop r ((u, varName idx) :: m) (idx + 1)) with
        | error e' => rw [hrest] at hb; simp at hb
        | ok rest =>
          rw [hrest, Except.ok.injEq] at hb
          have hnone : lookupByTermKey (m.map fun e => (Term.var e.2, e.2))
              (.var (varName idx)) = none := by
            refine lookup_mapped_none fun e he => ?_
            obtain ⟨k, hklt, hk⟩ := hinv e he
            exact hk ▸ varName_ne (Nat.ne_of_lt hklt)
          rw [← hb, renameLoop]
          rw [if_neg (by simp [Term.is_constant])]
          rw [hnone]
          have hmap : ((u, varName idx) :: m).map (fun e => (Term.var e.2, e.2)) =
              (Term.var (varName idx), varName idx) :: m.map fun e => (Term.var e.2, e.2) :=
            List.map_cons ..
          rw [← hmap]
          rw [ih ((u, varName idx) :: m) (idx + 1) rest ?_ hrest]
          intro e he
          cases List.mem_cons.mp he with
          | inl heq => exact ⟨idx, Nat.lt_succ_self idx, by rw [heq]⟩
          | inr hmem =>
            obtain ⟨k, hklt, hk⟩ := hinv e hmem
            exact ⟨k, Nat.lt_succ_of_lt hklt, hk⟩

/-! ### Lemmas about the substitution loop -/

theorem lookupSubst_none {subs : List (Term × Term)} {t : Term}
    (h : ∀ e ∈ subs, termKey e.1 ≠ termKey t) : lookupSubst subs t = none := by
  induction subs with
  | nil => rfl
  | cons e rest ih =>
    rw [lookupSubst, if_neg (h e (List.mem_cons_self _ _))]
    exact ih fun e' he' => h e' (List.mem_cons_of_mem _ he')

/-- Matching a list of distinct fresh variables `Xk, X(k+1), ...` against
any term list always succeeds: every position binds a new variable. -/
theorem substLoop_vars :
    ∀ (ss : List Term) (k : Nat) (subs : List (Term × Term)),
      (∀ e ∈ subs, ∃ j, j < k ∧ termKey e.1 = termKey (Term.var (varName j))) →
      ∃ r, substLoop ((List.range' k ss.length).map fun i => Term.var (varName i)) ss subs
        = some r := by
  intro ss
  induction ss with
  | nil =>
    intro k subs _
    exact ⟨subs, rfl⟩
  | cons s ss ih =>
    intro k subs hinv
    rw [List.length_cons, List.range'_succ, List.map_cons]
    rw [substLoop]
    rw [if_neg (by simp [Term.is_constant])]
    have hnone : lookupSubst subs (Term.var (varName k)) = none := by
      refine lookupSubst_none fun e he hk => ?_
      obtain ⟨j, hjlt, hj⟩ := hinv e he
      rw [hj] at hk
      exact varName_ne (Nat.ne_of_lt hjlt) (termKey_var_eq_iff.mp hk)
    rw [hnone]
    refine ih (k + 1) ((Term.var (varName k), s) :: subs) ?_
    intro e he
    cases List.mem_cons.mp he with
    | inl heq => exact ⟨k, Nat.lt_succ_self k, by rw [heq]⟩
    | inr hmem =>
      obtain ⟨j, hjlt, hj⟩ := hinv e hmem
      exact ⟨j, Nat.lt_succ_of_lt hjlt, hj⟩

/-! ### Claim theorems -/

/-- C3, counterexample: the claim that `ListTerms.is_constant` is the
negation of `is_template` fails on a list containing a template term, for
which both predicates answer true (`is_constant` ignores the items). -/
theorem claim_C3_counterexample :
    ¬ ((Term.listTerms [Term.templateTerm ["a"]]).is_constant =
        (!(Term.listTerms [Term.templateTerm ["a"]]).is_template)) := by
  decide

/-- C3, amended: `ListTerms.is_constant` returns true for every list,
regardless of its items, while `is_template` is true exactly when some
item is a template; the two predicates are not one another's negation when
a template item is present. -/
theorem claim_C3_listterms_is_constant (items : List Term) :
    (Term.listTerms items).is_constant = true ∧
      ((Term.listTerms items).is_template = true ↔ ∃ t ∈ items, t.is_template = true) := by
  refine ⟨rfl, ?_⟩
  show listTermsHasTemplate items = true ↔ _
  exact listTermsHasTemplate_iff

/-- C4: a Horn clause with an empty body renders as `head :- .`, not
`head :- true.` — `format_horn_clause` substitutes the literal `true` but
then iterates it through `Atom.__getitem__`, yielding its (empty) term
list, so the join contributes nothing; the stored body stays empty. -/
theorem claim_C4_empty_body_rendering :
    strHornClause ⟨mkAtomOfName "p" [], [], none⟩ = "p :- ." ∧
      (⟨mkAtomOfName "p" [], [], none⟩ : HornClause).body = [] ∧
      ¬ strHornClause ⟨mkAtomOfName "p" [], [], none⟩ = "p :- true." := by
  refine ⟨by decide, rfl, by decide⟩

/-- C5, counterexample: `update_type` is not commutative on all compatible
pairs: with `number = False` against `number = None` the Python `or`
returns `None` one way and `False` the other. -/
theorem claim_C5_counterexample :
    TermType.is_compatible ⟨false, some false⟩ ⟨false, none⟩ = true ∧
      ¬ (TermType.update_type ⟨false, some false⟩ ⟨false, none⟩ =
          TermType.update_type ⟨false, none⟩ ⟨false, some false⟩) := by
  decide

/-- C5, amended: `update_type` is idempotent, rejects a `number = True`
against `number = False` pair, and is commutative on compatible pairs
except when one `number` is `False` and the other unknown (`None`), where
the Python `or` of the two differs by order. -/
theorem claim_C5_update_type :
    (∀ t1 t2 : TermType, t1.is_compatible t2 = true →
      ¬ (t1.number = some false ∧ t2.number = none) →
      ¬ (t1.number = none ∧ t2.number = some false) →
      t1.update_type t2 = t2.update_type t1) ∧
    (∀ t : TermType, t.update_type t = some t) ∧
    (∀ t1 t2 : TermType, t1.number = some true → t2.number = some false →
      t1.update_type t2 = none) := by
  refine ⟨?_, ?_, ?_⟩
  · intro t1 t2
    obtain ⟨v1, n1⟩ := t1
    obtain ⟨v2, n2⟩ := t2
    cases v1 <;> cases v2 <;> rcases n1 with _ | b1 <;> rcases n2 with _ | b2 <;>
      (try cases b1) <;> (try cases b2) <;> decide
  · intro t
    obtain ⟨v, n⟩ := t
    cases v <;> rcases n with _ | b <;> (try cases b) <;> decide
  · intro t1 t2 h1 h2
    obtain ⟨v1, n1⟩ := t1
    obtain ⟨v2, n2⟩ := t2
    cases n1 with
    | none => simp at h1
    | some b1 =>
      cases n2 with
      | none => simp at h2
      | some b2 =>
        simp only [TermType.number] at h1 h2
        rw [Option.some.injEq] at h1 h2
        subst h1
        subst h2
        cases v1 <;> cases v2 <;> decide

/-- C5, witness for the amended theorem at concrete compatible inputs. -/
theorem claim_C5_witness :
    TermType.update_type ⟨false, some true⟩ ⟨true, none⟩ =
        TermType.update_type ⟨true, none⟩ ⟨false, some true⟩ ∧
      TermType.update_type ⟨true, some true⟩ ⟨true, some true⟩ = some ⟨true, some true⟩ ∧
      TermType.update_type ⟨false, some true⟩ ⟨false, some false⟩ = none :=
  ⟨claim_C5_update_type.1 _ _ (by decide) (by decide) (by decide),
    claim_C5_update_type.2.1 _,
    claim_C5_update_type.2.2 _ _ (by decide) (by decide)⟩

/-- C6, counterexample: `Term.__gt__` compares bare keys, not the
length-prefixed tuples, so `Constant("z") > Variable("a")` is true while
the `(len(key), key)` comparison says false (and `<` is simultaneously
true, via the shorter key). -/
theorem claim_C6_counterexample :
    termGt (.constant "z") (.var "a") = some true ∧
      pyTupleGt (lenPrefKey (.constant "z")) (lenPrefKey (.var "a")) = some false ∧
      termLt (.constant "z") (.var "a") = some true := by
  decide

/-- C6, amended: only `Term.__lt__` compares the `(len(key),) + key`
tuples; `<=`, `>` and `>=` compare the bare keys lexicographically.  The
length-first description is accurate for all four operators whenever the
two keys have equal length. -/
theorem claim_C6_term_ordering :
    (∀ a b : Term, termLt a b = pyTupleLt (lenPrefKey a) (lenPrefKey b)) ∧
    (∀ a b : Term, termLe a b = pyTupleLe (termKey a) (termKey b)) ∧
    (∀ a b : Term, termGt a b = pyTupleGt (termKey a) (termKey b)) ∧
    (∀ a b : Term, termGe a b = pyTupleGe (termKey a) (termKey b)) ∧
    (∀ a b : Term, (termKey a).length = (termKey b).length →
      termGt a b = pyTupleGt (lenPrefKey a) (lenPrefKey b) ∧
        termGe a b = pyTupleGe (lenPrefKey a) (lenPrefKey b) ∧
        termLe a b = pyTupleLe (lenPrefKey a) (lenPrefKey b)) := by
  refine ⟨fun a b => rfl, fun a b => rfl, fun a b => rfl, fun a b => rfl, ?_⟩
  intro a b h
  rw [lenPrefKey, lenPrefKey, h]
  refine ⟨?_, ?_, ?_⟩ <;>
    simp [termGt, termGe, termLe, pyTupleGt, pyTupleGe, pyTupleLe, pyValEq]

/-- C6, witness for the amended theorem at equal-length keys. -/
theorem claim_C6_witness :
    termGt (.constant "a") (.constant "b") =
      pyTupleGt (lenPrefKey (.constant "a")) (lenPrefKey (.constant "b")) :=
  (claim_C6_term_ordering.2.2.2.2 _ _ (by decide)).1

/-- C7: equality implies hash equality for terms, atoms, literals, atom
clauses and Horn clauses (each hashes a function of the same `key()` its
equality compares), and `Variable("X")` never equals `Constant("X")`
(the variable key carries the variant tag). -/
theorem claim_C7_eq_hash_consistency :
    (∀ t u : Term, pyTermEq t u = true → termHash t = termHash u) ∧
    (∀ a b : Atom, pyAtomEq a b = true → atomHash a = atomHash b) ∧
    (∀ a b : Literal, pyLiteralEq a b = true → literalHash a = literalHash b) ∧
    (∀ a b : AtomClause, pyAtomClauseEq a b = true → atomClauseHash a = atomClauseHash b) ∧
    (∀ a b : HornClause, pyHornEq a b = true → hornHash a = hornHash b) ∧
    pyTermEq (.var "X") (.constant "X") = false := by
  refine ⟨?_, ?_, ?_, ?_, ?_, by decide⟩
  · intro t u h
    rw [pyTermEq, decide_eq_true_eq] at h
    rw [termHash, termHash, h]
  · exact fun a b h => ckeyListHash_congr h
  · exact fun a b h => ckeyListHash_congr h
  · exact fun a b h => ckeyListHash_congr h
  · exact fun a b h => ckeyListHash_congr h

/-- C7, witness at concrete equal values of each kind. -/
theorem claim_C7_witness :
    termHash (.constant "c") = termHash (.constant "c") ∧
      atomHash ⟨⟨"p", 1, false⟩, [.constant "c"], 1, none⟩ =
        atomHash ⟨⟨"p", 1, false⟩, [.constant "c"], 1, none⟩ ∧
      literalHash ⟨⟨⟨"p", 0, false⟩, [], 1, none⟩, true⟩ =
        literalHash ⟨⟨⟨"p", 0, false⟩, [], 1, none⟩, true⟩ ∧
      hornHash ⟨⟨⟨"p", 0, false⟩, [], 1, none⟩, [], none⟩ =
        hornHash ⟨⟨⟨"p", 0, false⟩, [], 1, none⟩, [], none⟩ :=
  ⟨claim_C7_eq_hash_consistency.1 _ _ (by decide),
    claim_C7_eq_hash_consistency.2.1 _ _ (by decide),
    claim_C7_eq_hash_consistency.2.2.1 _ _ (by decide),
    claim_C7_eq_hash_consistency.2.2.2.2.1 _ _ (by decide)⟩

/-- C8: constructing an atom from a predicate of arity `n` succeeds on
every list of `n` already-built terms and fails synchronously with
`AtomMalformedException(expected = n, found = m)` on every list of length
`m ≠ n`. -/
theorem claim_C8_atom_arity_check (p : Predicate) (ts : List Term) :
    ((ts.length : Int) = p.arity → mkAtom p (ts.map .term) 1 none = .ok ⟨p, ts, 1, none⟩) ∧
      ((ts.length : Int) ≠ p.arity → mkAtom p (ts.map .term) 1 none =
        .error (.atomMalformed p.arity ts.length)) := by
  constructor
  · intro h
    rw [mkAtom]
    simp only [List.length_map]
    rw [if_neg (not_ne_iff.mpr h.symm), buildTerms_map_term]
  · intro h
    rw [mkAtom]
    simp only [List.length_map]
    rw [if_pos h.symm]

/-- C8, witness: a 1-ary predicate accepts one term and rejects none. -/
theorem claim_C8_witness :
    mkAtom ⟨"p", 1, false⟩ [.term (.constant "a")] 1 none =
        .ok ⟨⟨"p", 1, false⟩, [.constant "a"], 1, none⟩ ∧
      mkAtom ⟨"p", 1, false⟩ [] 1 none = .error (.atomMalformed 1 0) :=
  ⟨(claim_C8_atom_arity_check ⟨"p", 1, false⟩ [.constant "a"]).1 (by decide),
    (claim_C8_atom_arity_check ⟨"p", 1, false⟩ []).2 (by decide)⟩

/-- C10: atom equality and hashing read exactly the triple
`(weight, predicate, terms)`; atoms with equal triples compare equal with
equal hashes whatever their provenance, and none of the clause `key()`
tuples (atom, literal, atom clause, Horn clause) inspects provenance. -/
theorem claim_C10_provenance_ignored :
    (∀ a b : Atom, a.weight = b.weight → a.predicate = b.predicate → a.terms = b.terms →
      pyAtomEq a b = true ∧ atomHash a = atomHash b) ∧
    (∀ (a : Atom) (pv : Option FileDefinedClause),
      atomCKey ⟨a.predicate, a.terms, a.weight, pv⟩ = atomCKey a) ∧
    (∀ (l : Literal) (pv : Option FileDefinedClause),
      literalCKey ⟨⟨l.atom.predicate, l.atom.terms, l.atom.weight, pv⟩, l.negated⟩ =
        literalCKey l) ∧
    (∀ (c : AtomClause) (pv : Option FileDefinedClause),
      pyAtomClauseEq ⟨c.atom, pv⟩ c = true ∧ atomClauseHash ⟨c.atom, pv⟩ = atomClauseHash c) ∧
    (∀ (h : HornClause) (pv : Option FileDefinedClause),
      pyHornEq ⟨h.head, h.body, pv⟩ h = true ∧ hornHash ⟨h.head, h.body, pv⟩ = hornHash h) := by
  refine ⟨?_, fun a pv => rfl, fun l pv => rfl, ?_, ?_⟩
  · intro a b hw hp ht
    have hk : atomCKey a = atomCKey b := by
      rw [atomCKey, atomCKey, hw, hp, ht]
    exact ⟨by rw [pyAtomEq, hk]; exact ckeyListEq_refl _, by rw [atomHash, atomHash, hk]⟩
  · exact fun c pv => ⟨ckeyListEq_refl _, rfl⟩
  · exact fun h pv => ⟨ckeyListEq_refl _, rfl⟩

/-- C10, witness: two atoms equal in weight, predicate and terms but with
different provenance compare equal and hash equally. -/
theorem claim_C10_witness :
    pyAtomEq ⟨⟨"p", 1, false⟩, [.constant "a"], 2, none⟩
        ⟨⟨"p", 1, false⟩, [.constant "a"], 2, some ⟨3, "f"⟩⟩ = true ∧
      atomHash ⟨⟨"p", 1, false⟩, [.constant "a"], 2, none⟩ =
        atomHash ⟨⟨"p", 1, false⟩, [.constant "a"], 2, some ⟨3, "f"⟩⟩ :=
  claim_C10_provenance_ignored.1 _ _ rfl rfl rfl

/-- C9: `get_renamed_atom` only reads the predicate and the terms, always
builds its result with the default weight 1.0, and therefore maps two
atoms differing only in weight (or provenance) to the same — and Python
equal — canonical-key atom. -/
theorem claim_C9_renamed_weight (a1 a2 : Atom)
    (hp : a1.predicate = a2.predicate) (ht : a1.terms = a2.terms) :
    getRenamedAtom a1 = getRenamedAtom a2 ∧
      (∀ r, getRenamedAtom a1 = .ok r → r.weight = 1) ∧
      (∀ r1 r2, getRenamedAtom a1 = .ok r1 → getRenamedAtom a2 = .ok r2 →
        r1 = r2 ∧ pyAtomEq r1 r2 = true) := by
  have heq : getRenamedAtom a1 = getRenamedAtom a2 := by
    rw [getRenamedAtom, getRenamedAtom, hp, ht]
  refine ⟨heq, ?_, ?_⟩
  · intro r hok
    rw [getRenamedAtom] at hok
    obtain ⟨_, ts, _, hr⟩ := mkAtom_ok_iff.mp hok
    rw [hr]
  · intro r1 r2 h1 h2
    rw [heq, h2, Except.ok.injEq] at h1
    exact ⟨h1.symm, h1 ▸ pyAtomEq_refl r1⟩

/-- C9, witness: atoms with weights 5 and 1 and the same predicate and
terms rename to the same atom of weight 1. -/
theorem claim_C9_witness :
    getRenamedAtom ⟨⟨"p", 1, false⟩, [.var "Y"], 5, none⟩ =
        getRenamedAtom ⟨⟨"p", 1, false⟩, [.var "Y"], 1, none⟩ ∧
      (⟨⟨"p", 1, false⟩, [.var "X0"], 1, none⟩ : Atom).weight = 1 :=
  ⟨(claim_C9_renamed_weight ⟨⟨"p", 1, false⟩, [.var "Y"], 5, none⟩
      ⟨⟨"p", 1, false⟩, [.var "Y"], 1, none⟩ rfl rfl).1,
    (claim_C9_renamed_weight ⟨⟨"p", 1, false⟩, [.var "Y"], 5, none⟩
      ⟨⟨"p", 1, false⟩, [.var "Y"], 1, none⟩ rfl rfl).2.1
      ⟨⟨"p", 1, false⟩, [.var "X0"], 1, none⟩ rfl⟩

/-- C1: `get_substitution` returns no unifier when the predicates differ;
it returns a unifier whenever the generic atom is the `variable_atom` of
the (well-formed, ground) specific atom's predicate; and a generic
`p(X, X)` with a repeated variable unifies with `p(t1, t2)` exactly when
`t1` and `t2` are equal, binding the repeated variable once. -/
theorem claim_C1_get_substitution :
    (∀ g s : Atom, pyPredEq g.predicate s.predicate = false → getSubstitution g s = none) ∧
    (∀ s : Atom, s.predicate.arity = (s.terms.length : Int) → s.is_grounded = true →
      ∀ g, getVariableAtom s.predicate = .ok g → ∃ m, getSubstitution g s = some m) ∧
    (∀ (p : Predicate) (v : String) (t1 t2 : Term) (w1 w2 : ℚ)
        (pv1 pv2 : Option FileDefinedClause), p.arity = 2 →
      t1.is_constant = true → t2.is_constant = true →
      (getSubstitution ⟨p, [.var v, .var v], w1, pv1⟩ ⟨p, [t1, t2], w2, pv2⟩ = none ↔
        ¬ (termKey t1 = termKey t2))) := by
  refine ⟨?_, ?_, ?_⟩
  · intro g s h
    rw [getSubstitution, h]
    rfl
  · intro s hwf _ g hok
    rw [getVariableAtom] at hok
    obtain ⟨harity, ts, hts, hg⟩ := mkAtom_ok_iff.mp hok
    subst hg
    rw [List.length_map, List.length_range] at harity
    have hmap : (List.range s.predicate.arity.toNat).map
          (fun i => TermArg.term (.var (varName i))) =
        ((List.range s.predicate.arity.toNat).map fun i => Term.var (varName i)).map
          .term := by
      rw [List.map_map]
      rfl
    rw [hmap, buildTerms_map_term, Except.ok.injEq] at hts
    subst hts
    have hn : s.predicate.arity.toNat = s.terms.length := by omega
    rw [getSubstitution]
    have hpred : pyPredEq (Atom.mk s.predicate
        ((List.range s.predicate.arity.toNat).map fun i => Term.var (varName i)) 1
          none).predicate s.predicate = true := pyPredEq_refl _
    rw [hpred]
    show ∃ m, substLoop
      (((List.range s.predicate.arity.toNat).map fun i => Term.var (varName i)).take
        s.predicate.arity.toNat) (s.terms.take s.predicate.arity.toNat) [] = some m
    have htake1 : ((List.range s.predicate.arity.toNat).map fun i =>
        Term.var (varName i)).take s.predicate.arity.toNat =
        (List.range s.predicate.arity.toNat).map fun i => Term.var (varName i) :=
      List.take_of_length_le (by rw [List.length_map, List.length_range])
    have htake2 : s.terms.take s.predicate.arity.toNat = s.terms :=
      List.take_of_length_le (by omega)
    rw [htake1, htake2, hn, List.range_eq_range']
    exact substLoop_vars s.terms 0 [] (by intro e he; simp at he)
  · intro p v t1 t2 w1 w2 pv1 pv2 harity hc1 hc2
    rw [getSubstitution]
    have hpred : pyPredEq (Atom.mk p [.var v, .var v] w1 pv1).predicate
        (Atom.mk p [t1, t2] w2 pv2).predicate = true := pyPredEq_refl _
    rw [hpred]
    show (substLoop (List.take p.arity.toNat [.var v, .var v])
      (List.take p.arity.toNat [t1, t2]) [] = none) ↔ _
    rw [harity]
    show (substLoop [.var v, .var v] [t1, t2] [] = none) ↔ _
    by_cases hk : termKey t1 = termKey t2 <;>
      simp [substLoop, lookupSubst, pyTermEq, Term.is_constant, hk]

/-- C1, witness: a predicate mismatch, the variable atom of a ground
2-ary fact, and the repeated-variable generic atom `p(X, X)` against
`p(a, b)`, all at concrete inputs. -/
theorem claim_C1_witness :
    getSubstitution ⟨⟨"p", 0, false⟩, [], 1, none⟩ ⟨⟨"q", 0, false⟩, [], 1, none⟩ = none ∧
      (∃ m, getSubstitution ⟨⟨"p", 2, false⟩, [.var "X0", .var "X1"], 1, none⟩
        ⟨⟨"p", 2, false⟩, [.constant "a", .constant "b"], 1, none⟩ = some m) ∧
      getSubstitution ⟨⟨"p", 2, false⟩, [.var "X", .var "X"], 1, none⟩
        ⟨⟨"p", 2, false⟩, [.constant "a", .constant "b"], 1, none⟩ = none :=
  ⟨claim_C1_get_substitution.1 _ _ (by decide),
    claim_C1_get_substitution.2.1 ⟨⟨"p", 2, false⟩, [.constant "a", .constant "b"], 1, none⟩
      (by decide) (by decide) _ rfl,
    (claim_C1_get_substitution.2.2 ⟨"p", 2, false⟩ "X" (.constant "a") (.constant "b")
      1 1 none none (by decide) (by decide) (by decide)).mpr (by decide)⟩

/-- C2: `get_renamed_atom` is idempotent — renaming an already renamed
atom returns it unchanged — and maps two atoms with the same predicate
that are identical except for variable names with the same
variable-sharing pattern to Python-equal canonical atoms. -/
theorem claim_C2_renamed_atom :
    (∀ a r : Atom, getRenamedAtom a = .ok r → getRenamedAtom r = .ok r) ∧
    (∀ a1 a2 : Atom, a1.predicate = a2.predicate → SamePattern a1.terms a2.terms →
      ∀ r1 r2, getRenamedAtom a1 = .ok r1 → getRenamedAtom a2 = .ok r2 →
        pyAtomEq r1 r2 = true) := by
  constructor
  · intro a r hok
    rw [getRenamedAtom] at hok
    obtain ⟨harity, bts, hbts, hr⟩ := mkAtom_ok_iff.mp hok
    subst hr
    have hloop : renameLoop bts [] 0 = renameLoop a.terms [] 0 := by
      have := renameLoop_idem a.terms [] 0 bts (by intro e he; simp at he) hbts
      rwa [List.map_nil] at this
    rw [getRenamedAtom]
    show mkAtom a.predicate (renameLoop bts [] 0) 1 none = _
    rw [hloop]
    exact mkAtom_ok_iff.mpr ⟨harity, bts, hbts, rfl⟩
  · intro a1 a2 hpred hpat r1 r2 h1 h2
    rw [getRenamedAtom] at h1 h2
    obtain ⟨_, ts1, hts1, hr1⟩ := mkAtom_ok_iff.mp h1
    obtain ⟨_, ts2, hts2, hr2⟩ := mkAtom_ok_iff.mp h2
    subst hr1
    subst hr2
    obtain ⟨hlen, hconsts, hshare⟩ := hpat
    have hargs := renameLoop_pattern a1.terms a2.terms [] [] 0 hlen hconsts hshare
      List.Forall₂.nil
    have hkeys := buildTerms_argKeyEq hargs hts1 hts2
    have hk : atomCKey ⟨a1.predicate, ts1, 1, none⟩ = atomCKey ⟨a2.predicate, ts2, 1, none⟩ := by
      rw [atomCKey, atomCKey, hpred, hkeys]
    rw [pyAtomEq, hk]
    exact ckeyListEq_refl _

/-- C2, witness: renaming `p(Y, c, Y)` is idempotent, and `p(Y, Y)` and
`p(Z, Z)` (different weights, different variable names, same sharing
pattern) rename to equal canonical atoms. -/
theorem claim_C2_witness :
    getRenamedAtom ⟨⟨"p", 3, false⟩, [.var "X0", .constant "c", .var "X0"], 1, none⟩ =
        .ok ⟨⟨"p", 3, false⟩, [.var "X0", .constant "c", .var "X0"], 1, none⟩ ∧
      pyAtomEq ⟨⟨"p", 2, false⟩, [.var "X0", .var "X0"], 1, none⟩
        ⟨⟨"p", 2, false⟩, [.var "X0", .var "X0"], 1, none⟩ = true :=
  ⟨claim_C2_renamed_atom.1 ⟨⟨"p", 3, false⟩, [.var "Y", .constant "c", .var "Y"], 2, none⟩
      ⟨⟨"p", 3, false⟩, [.var "X0", .constant "c", .var "X0"], 1, none⟩ rfl,
    claim_C2_renamed_atom.2 ⟨⟨"p", 2, false⟩, [.var "Y", .var "Y"], 2, none⟩
      ⟨⟨"p", 2, false⟩, [.var "Z", .var "Z"], 1, none⟩ rfl
      (by refine ⟨rfl, ?_, ?_⟩ <;> decide)
      ⟨⟨"p", 2, false⟩, [.var "X0", .var "X0"], 1, none⟩
      ⟨⟨"p", 2, false⟩, [.var "X0", .var "X0"], 1, none⟩ rfl rfl⟩

end NeuralLog
